import Mathlib

set_option maxHeartbeats 1000000
set_option maxRecDepth 10000

/-!
Verification development for the skill-porter repository.

The definitions below are shallow embeddings of the JavaScript source:

* `src/converters/claude-to-gemini.js` — the A→B (Claude skill → Gemini
  extension) converter: the tool-permission mapper
  `_convertAllowedToolsToExclude`, the settings-inference engine
  `_inferSettingsFromMCPConfig` with its `_inferDescription` /
  `_inferDefaults` helpers, and the context generator `_generateGeminiContext`.
* `src/converters/gemini-to-claude.js` — the B→A converter:
  `_convertExcludeToAllowedTools` and `_generateClaudeSkill`.
* `src/analyzers/detector.js` — platform detection.
* `src/analyzers/validator.js` — `_validateClaude` field rules.
* `src/index.js` — the `SkillPorter.convert` dispatch.

Mutable JavaScript state is made explicit: functions that push warnings
return the emitted-warning information as part of their result.
-/

/-! ## Tool-permission mapper (claude-to-gemini.js lines 176-208,
    gemini-to-claude.js lines 163-175) -/

/-- The fixed 16-token capability universe, in its declared order.  The same
literal list appears in `_convertAllowedToolsToExclude`
(claude-to-gemini.js) and `_convertExcludeToAllowedTools`
(gemini-to-claude.js). -/
def allTools : List String :=
  ["Read", "Write", "Edit", "Glob", "Grep", "Bash", "Task",
   "WebFetch", "WebSearch", "TodoWrite", "AskUserQuestion",
   "SlashCommand", "Skill", "NotebookEdit", "BashOutput", "KillShell"]

/-- `_convertAllowedToolsToExclude` (claude-to-gemini.js lines 176-208) for a
list-valued `allowed-tools` field (the string-valued branch of the source
normalises a comma-separated string to such a list first).  The source pushes
an advisory warning onto `this.metadata.warnings` in the degenerate branch;
that side effect is returned here as a Boolean second component
(`true` = warning emitted). -/
def convertAllowedToolsToExclude (allowed : List String) : List String × Bool :=
  let excluded := allTools.filter (fun t => decide (t ∉ allowed))
  if excluded.length > allowed.length then (excluded, false) else ([], true)

/-- `_convertExcludeToAllowedTools` (gemini-to-claude.js lines 163-175). -/
def convertExcludeToAllowedTools (excludeTools : List String) : List String :=
  allTools.filter (fun t => decide (t ∉ excludeTools))

/-- A set of eight capability tokens (exactly half the universe), used to
exercise the tie case of the mapper. -/
def eightTools : List String :=
  ["Read", "Write", "Edit", "Glob", "Grep", "Bash", "Task", "WebFetch"]

/-- Filtering a nodup list down to the members of one of its sublists
recovers the sublist. -/
theorem filter_mem_eq_of_sublist {α : Type} [DecidableEq α] :
    ∀ {S L : List α}, List.Sublist S L → L.Nodup →
      L.filter (fun t => decide (t ∈ S)) = S := by
  intro S L h
  induction h with
  | slnil => intro _; rfl
  | @cons l₁ l₂ a h ih =>
    intro hnd
    obtain ⟨ha, hnd₂⟩ := List.nodup_cons.mp hnd
    have haS : a ∉ l₁ := fun hmem => ha (h.subset hmem)
    simp only [List.filter_cons, decide_eq_true_eq, haS, if_false, ite_false]
    simpa using ih hnd₂
  | @cons₂ l₁ l₂ a h ih =>
    intro hnd
    obtain ⟨ha, hnd₂⟩ := List.nodup_cons.mp hnd
    have hcongr : ∀ t ∈ l₂, (decide (t ∈ a :: l₁)) = (decide (t ∈ l₁)) := by
      intro t ht
      have hta : t ≠ a := fun e => ha (e ▸ ht)
      simp [List.mem_cons, hta]
    rw [List.filter_cons_of_pos (by simp), List.filter_congr hcongr, ih hnd₂]

/-- The universe list has no duplicates. -/
theorem allTools_nodup : allTools.Nodup := by decide

/-- C1 counterexample: at the half-universe subset `eightTools` the claim's
non-degeneracy condition `|whitelistToBlacklist(S)| <= |S|` holds (the mapper
returns the empty blacklist, of length `0 <= 8`), yet composing the two mapper
operations yields the full universe, not `S`; so the claimed round trip fails
at this input. -/
theorem convert_roundtrip_counterexample :
    (convertAllowedToolsToExclude eightTools).1.length ≤ eightTools.length
    ∧ convertExcludeToAllowedTools
        (convertAllowedToolsToExclude eightTools).1 ≠ eightTools := by
  constructor
  · decide
  · decide

/-- C1 (amended): for every subset `S` of the capability universe (a sublist,
so listed in the universe's order), the composition
`blacklistToWhitelist(whitelistToBlacklist(S))` equals `S` exactly on the
non-degenerate branch, which the code enters when the computed exclusion list
is strictly longer than `S`; otherwise the degenerate branch returns the
empty blacklist together with the advisory warning, and the composition
returns the full universe instead of `S`. -/
theorem convert_roundtrip_amended (S : List String) (hS : List.Sublist S allTools) :
    ((allTools.filter (fun t => decide (t ∉ S))).length > S.length →
      convertAllowedToolsToExclude S
          = (allTools.filter (fun t => decide (t ∉ S)), false)
      ∧ convertExcludeToAllowedTools (convertAllowedToolsToExclude S).1 = S)
    ∧ ((allTools.filter (fun t => decide (t ∉ S))).length ≤ S.length →
      convertAllowedToolsToExclude S = ([], true)
      ∧ convertExcludeToAllowedTools (convertAllowedToolsToExclude S).1
          = allTools) := by
  constructor
  · intro hlen
    have h1 : convertAllowedToolsToExclude S
        = (allTools.filter (fun t => decide (t ∉ S)), false) := by
      simp only [convertAllowedToolsToExclude]
      rw [if_pos hlen]
    refine ⟨h1, ?_⟩
    rw [h1]
    show convertExcludeToAllowedTools (allTools.filter (fun t => decide (t ∉ S))) = S
    unfold convertExcludeToAllowedTools
    have hcongr : ∀ t ∈ allTools,
        (decide (t ∉ allTools.filter (fun t => decide (t ∉ S))))
          = (decide (t ∈ S)) := by
      intro t ht
      apply decide_eq_decide.mpr
      constructor
      · intro hnot
        by_contra htS
        exact hnot (List.mem_filter.mpr ⟨ht, by simpa using htS⟩)
      · intro htS hmem
        have := (List.mem_filter.mp hmem).2
        simp at this
        exact this htS
    rw [List.filter_congr hcongr]
    exact filter_mem_eq_of_sublist hS allTools_nodup
  · intro hlen
    have h1 : convertAllowedToolsToExclude S = ([], true) := by
      simp only [convertAllowedToolsToExclude]
      rw [if_neg (by omega)]
    refine ⟨h1, ?_⟩
    rw [h1]
    decide

/-- C1 witness: the amended round-trip theorem evaluated at the three-token
subset `[Read, Write, Bash]`, whose exclusion list has 13 > 3 elements. -/
theorem convert_roundtrip_amended_witness :
    convertAllowedToolsToExclude ["Read", "Write", "Bash"]
        = (allTools.filter
            (fun t => decide (t ∉ (["Read", "Write", "Bash"] : List String))), false)
    ∧ convertExcludeToAllowedTools
        (convertAllowedToolsToExclude ["Read", "Write", "Bash"]).1
        = ["Read", "Write", "Bash"] :=
  (convert_roundtrip_amended ["Read", "Write", "Bash"] (by decide)).1 (by decide)

/-- C2 counterexample: at the exact 50/50 split `eightTools` the exclusion set
has exactly as many elements (8) as the allowed list, so the claim requires
the mapper to return `universe − allowed` (a non-empty list) with no warning;
the code instead takes the degenerate branch, returning the empty list and
emitting the advisory warning. -/
theorem convertAllowedToolsToExclude_tie_counterexample :
    (allTools.filter (fun t => decide (t ∉ eightTools))).length
        = eightTools.length
    ∧ allTools.filter (fun t => decide (t ∉ eightTools)) ≠ []
    ∧ convertAllowedToolsToExclude eightTools = ([], true) := by
  refine ⟨by decide, by decide, by decide⟩

/-- C2 (amended): for every allowed list, the mapper emits the empty exclusion
list together with the advisory warning exactly when the exclusion set
(universe minus allowed, in the universe's declared order) contains *at most*
as many elements as the allowed list — ties fall into the degenerate branch;
only when the exclusion set is strictly larger does it return
`universe − allowed`, ordered by the universe's declared order (the result is
always a sublist of the universe). -/
theorem convertAllowedToolsToExclude_spec (allowed : List String) :
    ((allTools.filter (fun t => decide (t ∉ allowed))).length ≤ allowed.length →
      convertAllowedToolsToExclude allowed = ([], true))
    ∧ ((allTools.filter (fun t => decide (t ∉ allowed))).length > allowed.length →
      convertAllowedToolsToExclude allowed
          = (allTools.filter (fun t => decide (t ∉ allowed)), false))
    ∧ List.Sublist (convertAllowedToolsToExclude allowed).1 allTools := by
  refine ⟨?_, ?_, ?_⟩
  · intro hlen
    simp only [convertAllowedToolsToExclude]
    rw [if_neg (by omega)]
  · intro hlen
    simp only [convertAllowedToolsToExclude]
    rw [if_pos hlen]
  · simp only [convertAllowedToolsToExclude]
    by_cases hlen :
        (allTools.filter (fun t => decide (t ∉ allowed))).length > allowed.length
    · rw [if_pos hlen]
      exact List.filter_sublist _
    · rw [if_neg hlen]
      exact List.nil_sublist _

/-- C2 witness: the specification evaluated at the singleton allowed list
`[Read]` (15 excluded > 1 allowed, non-degenerate) and, via the tie theorem,
at the degenerate half-universe split. -/
theorem convertAllowedToolsToExclude_spec_witness :
    convertAllowedToolsToExclude ["Read"]
        = (allTools.filter (fun t => decide (t ∉ (["Read"] : List String))), false)
    ∧ convertAllowedToolsToExclude (allTools) = ([], true) :=
  ⟨(convertAllowedToolsToExclude_spec ["Read"]).2.1 (by decide),
   (convertAllowedToolsToExclude_spec allTools).1 (by decide)⟩

/-- C8 counterexample: the unknown token `CustomTool` appears in the input
permission lists but in neither direction's converted permission field — the
mapper drops it rather than preserving it. -/
theorem unknown_token_counterexample :
    ("CustomTool" ∈ (["Read", "CustomTool"] : List String))
    ∧ "CustomTool" ∉ (convertAllowedToolsToExclude ["Read", "CustomTool"]).1
    ∧ ("CustomTool" ∈ (["CustomTool"] : List String))
    ∧ "CustomTool" ∉ convertExcludeToAllowedTools ["CustomTool"] := by
  refine ⟨by decide, by decide, by decide, by decide⟩

/-- C8 (amended): both mapper directions filter the fixed universe, so their
output permission fields only ever contain universe tokens; a token outside
the closed capability universe is dropped from the converted permission field
(its only effect is on the membership tests), never preserved in it. -/
theorem unknown_token_dropped (allowed excludeTools : List String) (t : String)
    (ht : t ∉ allTools) :
    t ∉ (convertAllowedToolsToExclude allowed).1
    ∧ t ∉ convertExcludeToAllowedTools excludeTools := by
  constructor
  · intro hmem
    have hsub : List.Sublist (convertAllowedToolsToExclude allowed).1 allTools := by
      simp only [convertAllowedToolsToExclude]
      by_cases hlen :
          (allTools.filter (fun t => decide (t ∉ allowed))).length > allowed.length
      · rw [if_pos hlen]; exact List.filter_sublist _
      · rw [if_neg hlen]; exact List.nil_sublist _
    exact ht (hsub.subset hmem)
  · intro hmem
    exact ht ((List.filter_sublist _).subset hmem)

/-- C8 witness: the amended drop theorem evaluated at the unknown token
`CustomTool`. -/
theorem unknown_token_dropped_witness :
    "CustomTool" ∉ (convertAllowedToolsToExclude ["Read", "CustomTool"]).1
    ∧ "CustomTool" ∉ convertExcludeToAllowedTools ["CustomTool"] :=
  unknown_token_dropped ["Read", "CustomTool"] ["CustomTool"] "CustomTool" (by decide)

/-! ## Platform detection (detector.js) -/

/-- The observable facts about a skill/extension directory that
`PlatformDetector.detect` inspects (detector.js lines 94-146): which of the
schema-specific files exist, and whether each passes its per-file validity
probe.  The model covers directories that exist (the source throws before
classification when the path is not a directory). -/
structure DirListing where
  hasSkillMd : Bool
  skillHasFrontmatter : Bool
  hasMarketplaceJson : Bool
  marketplaceValidJson : Bool
  hasGeminiManifest : Bool
  geminiManifestValidJson : Bool
  hasGeminiMd : Bool

/-- One entry of the `files.claude` / `files.gemini` arrays. -/
structure FileEntry where
  file : String
  valid : Bool
deriving DecidableEq

/-- `_detectClaudeFiles` (detector.js lines 94-120): `SKILL.md` is listed
whenever it exists (its frontmatter probe only sets the `valid` flag), and
likewise `.claude-plugin/marketplace.json` with its JSON probe. -/
def detectClaudeFiles (d : DirListing) : List FileEntry :=
  (if d.hasSkillMd then [⟨"SKILL.md", d.skillHasFrontmatter⟩] else [])
    ++ (if d.hasMarketplaceJson
        then [⟨".claude-plugin/marketplace.json", d.marketplaceValidJson⟩]
        else [])

/-- `_detectGeminiFiles` (detector.js lines 125-146). -/
def detectGeminiFiles (d : DirListing) : List FileEntry :=
  (if d.hasGeminiManifest
   then [⟨"gemini-extension.json", d.geminiManifestValidJson⟩]
   else [])
    ++ (if d.hasGeminiMd then [⟨"GEMINI.md", true⟩] else [])

/-- The classification part of `PlatformDetector.detect` (detector.js lines
52-68), returning the `platform` and `confidence` strings of the detection
result.  The platform constants are the `PLATFORM_TYPES` strings of the
source. -/
def detect (d : DirListing) : String × String :=
  let hasClaude := (detectClaudeFiles d).length > 0
  let hasGemini := (detectGeminiFiles d).length > 0
  if hasClaude ∧ hasGemini then ("universal", "high")
  else if hasClaude then ("claude", "high")
  else if hasGemini then ("gemini", "high")
  else ("unknown", "low")

/-- C4: for every existing directory, detection classifies it as
`universal` (the spec's Both) exactly when at least one SchemaA file and at
least one SchemaB file are found, as `claude` when only SchemaA files are
found, as `gemini` when only SchemaB files are found, and as `unknown`
otherwise; and the confidence is `high` if and only if the platform is not
`unknown`, `low` otherwise. -/
theorem detect_classification (d : DirListing) :
    ((detect d).1 = "universal"
        ↔ detectClaudeFiles d ≠ [] ∧ detectGeminiFiles d ≠ [])
    ∧ ((detect d).1 = "claude"
        ↔ detectClaudeFiles d ≠ [] ∧ detectGeminiFiles d = [])
    ∧ ((detect d).1 = "gemini"
        ↔ detectClaudeFiles d = [] ∧ detectGeminiFiles d ≠ [])
    ∧ ((detect d).1 = "unknown"
        ↔ detectClaudeFiles d = [] ∧ detectGeminiFiles d = [])
    ∧ ((detect d).2 = "high" ↔ (detect d).1 ≠ "unknown")
    ∧ ((detect d).2 = "high" ∨ (detect d).2 = "low") := by
  obtain ⟨a, b, c, e, f, g, h⟩ := d
  cases a <;> cases b <;> cases c <;> cases e <;> cases f <;> cases g <;> cases h
    <;> decide

/-! ## Claude-side validator (validator.js lines 70-94) -/

/-- The result shape returned by `Validator.validate` (validator.js lines
35-39): `valid` is computed from the collected errors alone. -/
structure ValidationResult where
  valid : Bool
  errors : List String
  warnings : List String

/-- `Validator.validate`'s final assembly: `valid = (errors.length === 0)`. -/
def mkValidationResult (errors warnings : List String) : ValidationResult :=
  { valid := errors.isEmpty, errors := errors, warnings := warnings }

/-- Character class of the skill-name regex `^[a-z0-9-]+$`. -/
def nameCharOk (c : Char) : Bool :=
  ('a' ≤ c && c ≤ 'z') || ('0' ≤ c && c ≤ '9') || c = '-'

/-- The regex test `/^[a-z0-9-]+$/.test(name)`: non-empty and every character
in the class. -/
def namePatternOk (n : String) : Bool :=
  !n.isEmpty && n.data.all nameCharOk


/-- The `name` checks of `_validateClaude` (validator.js lines 73-83),
producing pushed errors in order.  The input is the `name` value of the
parsed metadata block (`none` when the key is absent).  JavaScript
truthiness makes an empty string behave like a missing field. -/
def validateClaudeName (name : Option String) : List String :=
  match name with
  | none => ["SKILL.md frontmatter missing required field: name"]
  | some n =>
    if n = "" then ["SKILL.md frontmatter missing required field: name"]
    else
      (if namePatternOk n then []
       else ["Skill name must be lowercase letters, numbers, and hyphens only"])
        ++ (if n.length > 64 then ["Skill name must be 64 characters or less"]
            else [])

/-- The `description` checks of `_validateClaude` (validator.js lines 85-94),
producing `(errors, warnings)`. -/
def validateClaudeDescription (description : Option String) :
    List String × List String :=
  match description with
  | none => (["SKILL.md frontmatter missing required field: description"], [])
  | some d =>
    if d = "" then
      (["SKILL.md frontmatter missing required field: description"], [])
    else
      ((if d.length > 1024 then ["Description must be 1024 characters or less"]
        else []),
       (if d.length < 50 then
          ["Description should be descriptive (at least 50 characters recommended)"]
        else []))

/-- The frontmatter field checks of `_validateClaude` (validator.js lines
70-94): errors and warnings collected in push order.  The repository's
minimal YAML parser (`_parseYAML`) never produces empty-string values, so
`some ""` does not arise from an actual validation run. -/
def validateClaudeFields (name description : Option String) :
    List String × List String :=
  (validateClaudeName name ++ (validateClaudeDescription description).1,
   (validateClaudeDescription description).2)

/-- Every string pushed by the name checks is one of the three name
messages. -/
theorem validateClaudeName_messages (name : Option String) (s : String)
    (hs : s ∈ validateClaudeName name) :
    s = "SKILL.md frontmatter missing required field: name"
    ∨ s = "Skill name must be lowercase letters, numbers, and hyphens only"
    ∨ s = "Skill name must be 64 characters or less" := by
  match name with
  | none =>
    simp [validateClaudeName] at hs
    exact Or.inl hs
  | some n =>
    simp only [validateClaudeName] at hs
    by_cases h0 : n = ""
    · rw [if_pos h0] at hs
      simp at hs
      exact Or.inl hs
    · rw [if_neg h0] at hs
      rcases List.mem_append.mp hs with h | h
      · right; left
        revert h
        split <;> simp
      · right; right
        revert h
        split <;> simp

/-- C7: for every SchemaA validation run on a present name and description:
a name containing any character outside lowercase letters/digits/hyphens
produces the naming-pattern error; a name longer than 64 characters produces
the length error; a description longer than 1024 characters produces an
error while a (present, hence non-empty) description shorter than 50
characters produces only a warning and no description error; and the
assembled result's `valid` flag is true if and only if the errors list is
empty, warnings never affecting validity. -/
theorem validateClaude_field_rules (n d : String) :
    ((∃ c ∈ n.data, nameCharOk c = false) →
      "Skill name must be lowercase letters, numbers, and hyphens only"
        ∈ (validateClaudeFields (some n) (some d)).1)
    ∧ (n.length > 64 →
      "Skill name must be 64 characters or less"
        ∈ (validateClaudeFields (some n) (some d)).1)
    ∧ (d.length > 1024 →
      "Description must be 1024 characters or less"
        ∈ (validateClaudeFields (some n) (some d)).1)
    ∧ (d ≠ "" → d.length < 50 →
      "Description should be descriptive (at least 50 characters recommended)"
        ∈ (validateClaudeFields (some n) (some d)).2
      ∧ "Description must be 1024 characters or less"
          ∉ (validateClaudeFields (some n) (some d)).1
      ∧ "SKILL.md frontmatter missing required field: description"
          ∉ (validateClaudeFields (some n) (some d)).1)
    ∧ (∀ errs warns : List String,
        (mkValidationResult errs warns).valid = true ↔ errs = []) := by
  refine ⟨?_, ?_, ?_, ?_, ?_⟩
  · rintro ⟨c, hc, hbad⟩
    have hne : n ≠ "" := by
      intro he
      rw [he] at hc
      simp at hc
    have hpat : namePatternOk n = false := by
      have hall : n.data.all nameCharOk = false :=
        List.all_eq_false.mpr ⟨c, hc, by simp [hbad]⟩
      simp [namePatternOk, hall]
    simp only [validateClaudeFields, List.mem_append]
    left
    simp [validateClaudeName, hne, hpat]
  · intro hlen
    have hne : n ≠ "" := by
      intro he
      rw [he] at hlen
      simp [String.length] at hlen
    simp only [validateClaudeFields, List.mem_append]
    left
    by_cases hpat : namePatternOk n <;>
      simp [validateClaudeName, hne, hpat, hlen]
  · intro hlen
    have hne : d ≠ "" := by
      intro he
      rw [he] at hlen
      simp [String.length] at hlen
    simp only [validateClaudeFields, List.mem_append]
    right
    simp [validateClaudeDescription, hne, hlen]
  · intro hne hlen
    have hnot : ¬ d.length > 1024 := by omega
    refine ⟨?_, ?_, ?_⟩
    · simp [validateClaudeFields, validateClaudeDescription, hne, hnot, hlen]
    · simp only [validateClaudeFields, List.mem_append]
      rintro (h | h)
      · rcases validateClaudeName_messages (some n) _ h with h' | h' | h' <;>
          revert h' <;> decide
      · simp [validateClaudeDescription, hne, hnot] at h
    · simp only [validateClaudeFields, List.mem_append]
      rintro (h | h)
      · rcases validateClaudeName_messages (some n) _ h with h' | h' | h' <;>
          revert h' <;> decide
      · simp [validateClaudeDescription, hne, hnot] at h
  · intro errs warns
    simp [mkValidationResult, List.isEmpty_iff]

/-- C7 witness: the field rules evaluated at the uppercase name `My-Skill`
and a 40-character description. -/
theorem validateClaude_field_rules_witness :
    ("Skill name must be lowercase letters, numbers, and hyphens only"
      ∈ (validateClaudeFields (some "My-Skill")
          (some "A helper that formats code for review..")).1)
    ∧ ("Description should be descriptive (at least 50 characters recommended)"
      ∈ (validateClaudeFields (some "My-Skill")
          (some "A helper that formats code for review..")).2)
    ∧ ((mkValidationResult [] ["w"]).valid = true ↔ ([] : List String) = []) :=
  ⟨(validateClaude_field_rules "My-Skill" "A helper that formats code for review..").1
      ⟨'M', by decide, by decide⟩,
   ((validateClaude_field_rules "My-Skill" "A helper that formats code for review..").2.2.2.1
      (by decide) (by decide)).1,
   (validateClaude_field_rules "My-Skill" "A helper that formats code for review..").2.2.2.2
      [] ["w"]⟩

/-! ## B→A frontmatter generation (gemini-to-claude.js lines 85-98) -/

/-- The part of the Gemini manifest that `_generateClaudeSkill` reads when
building the SKILL.md frontmatter. -/
structure GeminiManifestPerms where
  name : String
  description : String
  excludeTools : Option (List String)

/-- The generated SKILL.md frontmatter object. -/
structure ClaudeFrontmatter where
  name : String
  description : String
  allowedTools : Option (List String)
deriving DecidableEq

/-- The frontmatter construction of `_generateClaudeSkill` (gemini-to-claude.js
lines 89-98): the `allowed-tools` key is added only under the JavaScript guard
`manifest.excludeTools && manifest.excludeTools.length > 0`. -/
def generateClaudeFrontmatter (m : GeminiManifestPerms) : ClaudeFrontmatter :=
  { name := m.name
    description := m.description
    allowedTools :=
      match m.excludeTools with
      | some ex =>
        if ex.length > 0 then some (convertExcludeToAllowedTools ex) else none
      | none => none }

/-- C9: the B→A converter emits an `allowed-tools` frontmatter field only when
the manifest's `excludeTools` list exists and is non-empty; for an empty
`excludeTools` array the generated frontmatter has no `allowed-tools` field at
all (in particular not a whitelist equal to the full universe), and for a
non-empty one it is the blacklist-to-whitelist conversion. -/
theorem generateClaudeFrontmatter_allowedTools (nm ds : String) :
    ((generateClaudeFrontmatter ⟨nm, ds, some []⟩).allowedTools = none)
    ∧ ((generateClaudeFrontmatter ⟨nm, ds, some []⟩).allowedTools
        ≠ some allTools)
    ∧ ((generateClaudeFrontmatter ⟨nm, ds, none⟩).allowedTools = none)
    ∧ (∀ ex : List String,
        (generateClaudeFrontmatter ⟨nm, ds, some ex⟩).allowedTools ≠ none →
          ex ≠ [])
    ∧ (∀ ex : List String, ex ≠ [] →
        (generateClaudeFrontmatter ⟨nm, ds, some ex⟩).allowedTools
          = some (convertExcludeToAllowedTools ex)) := by
  refine ⟨rfl, by simp [generateClaudeFrontmatter], rfl, ?_, ?_⟩
  · intro ex hne he
    apply hne
    simp only [generateClaudeFrontmatter, he]
    rfl
  · intro ex hne
    simp only [generateClaudeFrontmatter]
    rw [if_pos (by simpa [List.length_pos] using hne)]

/-- C9 witness: the frontmatter rule evaluated at a concrete manifest with the
one-element exclusion list `[Bash]`. -/
theorem generateClaudeFrontmatter_allowedTools_witness :
    (generateClaudeFrontmatter ⟨"db-helper", "Query databases", some []⟩).allowedTools
        = none
    ∧ (generateClaudeFrontmatter
        ⟨"db-helper", "Query databases", some ["Bash"]⟩).allowedTools
        = some (convertExcludeToAllowedTools ["Bash"]) :=
  ⟨(generateClaudeFrontmatter_allowedTools "db-helper" "Query databases").1,
   (generateClaudeFrontmatter_allowedTools "db-helper" "Query databases").2.2.2.2
      ["Bash"] (by decide)⟩

/-! ## Conversion dispatch (index.js lines 33-87) -/

/-- The control decision taken by `SkillPorter.convert` after detection
(index.js lines 39-72).  `noConversion` models the two early `return`
statements: a result object with `success: true`, a `message`, a `platform`,
and no `files` key — no converter is constructed and nothing is written.
`runConverter` models falling through to construct and run the named
converter, and `failure` models the two `throw` statements (message text
paraphrased without quotation marks for the invalid-target case). -/
inductive ConvertStep where
  | noConversion (message : String) (platform : String)
  | runConverter (converter : String)
  | failure (error : String)
deriving DecidableEq

/-- The dispatch logic of `SkillPorter.convert` (index.js lines 39-72), as a
function of the detected platform string and the requested target platform
string. -/
def convertDispatch (detected target : String) : ConvertStep :=
  if detected = "unknown" then
    .failure "Unable to detect platform type. Ensure directory contains valid skill/extension files."
  else if detected = "universal" then
    .noConversion "Already a universal skill/extension - no conversion needed"
      "universal"
  else if detected = target then
    .noConversion
      ("Already a " ++ target ++ " "
        ++ (if target = "claude" then "skill" else "extension")
        ++ " - no conversion needed")
      detected
  else if target = "gemini" then .runConverter "ClaudeToGeminiConverter"
  else if target = "claude" then .runConverter "GeminiToClaudeConverter"
  else .failure ("Invalid target platform: " ++ target ++ ". Must be claude or gemini")

/-- The early-return result objects of index.js lines 44-58 carry
`success: true`; conversions and failures do not produce such an object. -/
def stepSuccessNoWork : ConvertStep → Bool
  | .noConversion _ _ => true
  | _ => false

/-- Whether the step constructs and runs a converter (and hence may write
files); the early returns do not. -/
def stepRunsConverter : ConvertStep → Bool
  | .runConverter _ => true
  | _ => false

/-- The `files` key of the returned result object: the early-return objects
carry none (index.js lines 44-58), while a converter run returns the
converter's `result.files`, which is outside this model. -/
def stepFilesKey : ConvertStep → Option Unit
  | .noConversion _ _ => none
  | .runConverter _ => some ()
  | .failure _ => none

/-- C10: for every source whose detected platform is `universal` or already
equals the requested target platform (`claude` or `gemini`),
`SkillPorter.convert` takes an early return: the result has `success: true`
with an explanatory message, no converter is run, and the result carries no
generated-files list. -/
theorem convert_early_return (detected target : String)
    (htarget : target = "claude" ∨ target = "gemini")
    (hdet : detected = "universal" ∨ detected = target) :
    (∃ msg platform,
      convertDispatch detected target = .noConversion msg platform)
    ∧ stepSuccessNoWork (convertDispatch detected target) = true
    ∧ stepRunsConverter (convertDispatch detected target) = false
    ∧ stepFilesKey (convertDispatch detected target) = none := by
  have hstep : ∃ msg platform,
      convertDispatch detected target = .noConversion msg platform := by
    rcases hdet with h | h
    · refine ⟨"Already a universal skill/extension - no conversion needed",
        "universal", ?_⟩
      simp only [convertDispatch, h]
      rfl
    · subst h
      rcases htarget with h | h <;> subst h <;>
        exact ⟨_, _, rfl⟩
  obtain ⟨msg, platform, hstep⟩ := hstep
  rw [hstep]
  exact ⟨⟨msg, platform, rfl⟩, rfl, rfl, rfl⟩

/-- C10 witness: the early-return theorem evaluated at a universal source
converted to gemini and at a claude source converted to claude. -/
theorem convert_early_return_witness :
    (stepSuccessNoWork (convertDispatch "universal" "gemini") = true
      ∧ stepFilesKey (convertDispatch "universal" "gemini") = none)
    ∧ (stepSuccessNoWork (convertDispatch "claude" "claude") = true
      ∧ stepRunsConverter (convertDispatch "claude" "claude") = false) :=
  ⟨⟨(convert_early_return "universal" "gemini" (Or.inr rfl) (Or.inl rfl)).2.1,
    (convert_early_return "universal" "gemini" (Or.inr rfl) (Or.inl rfl)).2.2.2⟩,
   ⟨(convert_early_return "claude" "claude" (Or.inl rfl) (Or.inr rfl)).2.1,
    (convert_early_return "claude" "claude" (Or.inl rfl) (Or.inr rfl)).2.2.1⟩⟩

/-! ## Settings inference (claude-to-gemini.js lines 213-298)

Strings are manipulated as `List Char` (the `data` of a `String`), matching
the character-level behaviour of the JavaScript string operations.  Values
are assumed newline-free (the JavaScript regex dot does not match newlines;
environment-variable values in manifests are single-line). -/

/-- `String.prototype.toLowerCase`, character by character. -/
def toLowerChars (l : List Char) : List Char :=
  l.map Char.toLower

/-- `String.prototype.includes`: contiguous-substring test. -/
def containsSeq (pat : List Char) : List Char → Bool
  | [] => pat.isPrefixOf []
  | c :: rest => pat.isPrefixOf (c :: rest) || containsSeq pat rest

/-- Index of the last occurrence of a character, if any (the greedy `.+`
of the placeholder regex captures up to the last closing brace). -/
def lastIdxOf (c : Char) : List Char → Option Nat
  | [] => none
  | a :: rest =>
    match lastIdxOf c rest with
    | some j => some (j + 1)
    | none => if a = c then some 0 else none

/-- The JavaScript match `value.match(/\$\x7b(.+)\x7d/)` used by
`_inferSettingsFromMCPConfig` (claude-to-gemini.js line 221) and
`_transformMCPServers`: scan left to right for a dollar-brace opener
followed by at least one character and a closing brace; the greedy `.+`
captures through the last closing brace of the remainder.  Returns the
captured variable name, or `none` when the value contains no placeholder. -/
def extractPlaceholder : List Char → Option (List Char)
  | [] => none
  | a :: rest =>
    if a = '$' then
      match rest with
      | '\x7b' :: after =>
        match lastIdxOf '\x7d' after with
        | some j => if 1 ≤ j then some (after.take j) else extractPlaceholder rest
        | none => extractPlaceholder rest
      | _ => extractPlaceholder rest
    else extractPlaceholder rest

/-- `String.prototype.split` on underscore. -/
def splitUnderscore : List Char → List (List Char)
  | [] => [[]]
  | c :: rest =>
    if c = '_' then [] :: splitUnderscore rest
    else
      match splitUnderscore rest with
      | [] => [[c]]
      | h :: t => (c :: h) :: t

/-- `word.charAt(0) + word.slice(1).toLowerCase()` (claude-to-gemini.js
line 281): the first character is kept as-is, the rest lowercased. -/
def titleWord (w : List Char) : List Char :=
  w.take 1 ++ toLowerChars (w.drop 1)

/-- `Array.prototype.join(' ')`. -/
def joinWithSpace : List (List Char) → List Char
  | [] => []
  | [w] => w
  | w :: rest => w ++ ' ' :: joinWithSpace rest

/-- `_inferDescription` (claude-to-gemini.js lines 261-283): a fixed
dictionary of well-known variable names, else derive from the name by
splitting on underscores and title-casing. -/
def inferDescription (nm : List Char) : List Char :=
  if nm = ("DB_HOST".data) then ("Database server hostname".data)
  else if nm = ("DB_PORT".data) then ("Database server port".data)
  else if nm = ("DB_NAME".data) then ("Database name".data)
  else if nm = ("DB_USER".data) then ("Database username".data)
  else if nm = ("DB_PASSWORD".data) then ("Database password".data)
  else if nm = ("API_KEY".data) then ("API authentication key".data)
  else if nm = ("API_SECRET".data) then ("API secret".data)
  else if nm = ("API_URL".data) then ("API endpoint URL".data)
  else if nm = ("HOST".data) then ("Server hostname".data)
  else if nm = ("PORT".data) then ("Server port".data)
  else joinWithSpace ((splitUnderscore nm).map titleWord)

/-- `_inferDefaults` (claude-to-gemini.js lines 288-298). -/
def inferDefaults (nm : List Char) : Option (List Char) :=
  if nm = ("DB_HOST".data) then some ("localhost".data)
  else if nm = ("DB_PORT".data) then some ("5432".data)
  else if nm = ("HOST".data) then some ("localhost".data)
  else if nm = ("PORT".data) then some ("8080".data)
  else if nm = ("API_URL".data) then some ("https://api.example.com".data)
  else none

/-- The four case-insensitive substrings that mark a variable as secret
(claude-to-gemini.js lines 235-238). -/
def secretSubstrings : List (List Char) :=
  [("password".data), ("secret".data), ("token".data), ("key".data)]

/-- The secret/password detection condition of `_inferSettingsFromMCPConfig`
(claude-to-gemini.js lines 235-238). -/
def secretName (nm : List Char) : Bool :=
  containsSeq ("password".data) (toLowerChars nm)
    || containsSeq ("secret".data) (toLowerChars nm)
    || containsSeq ("token".data) (toLowerChars nm)
    || containsSeq ("key".data) (toLowerChars nm)

/-- A synthesized setting descriptor.  JavaScript objects distinguish an
absent key from a `false` value; absent optional keys are `none` here. -/
structure SettingDescriptor where
  name : List Char
  description : List Char
  secret : Option Bool
  required : Option Bool
  default : Option (List Char)
deriving DecidableEq

/-- The descriptor synthesized for one variable name by
`_inferSettingsFromMCPConfig` (claude-to-gemini.js lines 229-247): a name
and description always, `secret: true` and `required: true` exactly for
secret-marked names, and a `default` only for dictionary hits. -/
def mkSetting (nm : List Char) : SettingDescriptor :=
  { name := nm
    description := inferDescription nm
    secret := if secretName nm then some true else none
    required := if secretName nm then some true else none
    default := inferDefaults nm }

/-- A named MCP server configuration entry (the fields
`_inferSettingsFromMCPConfig` reads; `env` in insertion order). -/
structure ServerConfig where
  command : String
  args : List String
  env : List (String × String)

/-- The environment values of all servers, in the iteration order of
`_inferSettingsFromMCPConfig`: servers in insertion order, env entries in
insertion order. -/
def allEnvValues (servers : List (String × ServerConfig)) : List String :=
  (servers.map (fun p => p.2.env.map Prod.snd)).flatten

/-- The loop of `_inferSettingsFromMCPConfig` (claude-to-gemini.js lines
217-253) with its `seenVars` accumulator made explicit. -/
def inferSettingsAux (seen : List (List Char)) : List String → List SettingDescriptor
  | [] => []
  | v :: rest =>
    match extractPlaceholder v.data with
    | none => inferSettingsAux seen rest
    | some nm =>
      if nm ∈ seen then inferSettingsAux seen rest
      else mkSetting nm :: inferSettingsAux (nm :: seen) rest

/-- `_inferSettingsFromMCPConfig` (claude-to-gemini.js lines 213-256). -/
def inferSettingsFromMCPConfig (servers : List (String × ServerConfig)) :
    List SettingDescriptor :=
  inferSettingsAux [] (allEnvValues servers)

/-- The placeholder variable names referenced by the servers, in iteration
order, with duplicates retained. -/
def extractedNames (servers : List (String × ServerConfig)) : List (List Char) :=
  (allEnvValues servers).filterMap (fun v => extractPlaceholder v.data)

/-- First-occurrence deduplication relative to an already-seen accumulator
(the specification-side description of the `seenVars` mechanism). -/
def dedupFirstSeenGo (seen : List (List Char)) : List (List Char) → List (List Char)
  | [] => []
  | x :: rest =>
    if x ∈ seen then dedupFirstSeenGo seen rest
    else x :: dedupFirstSeenGo (x :: seen) rest

/-- First-occurrence deduplication, order preserved. -/
def dedupFirstSeen (l : List (List Char)) : List (List Char) :=
  dedupFirstSeenGo [] l

/-- `containsSeq` decides contiguous-substring containment. -/
theorem containsSeq_iff_isInfix (pat : List Char) :
    ∀ s : List Char, containsSeq pat s = true ↔ List.IsInfix pat s := by
  intro s
  induction s with
  | nil =>
    simp [containsSeq, List.isPrefixOf_iff_prefix]
  | cons c rest ih =>
    simp only [containsSeq, Bool.or_eq_true, List.isPrefixOf_iff_prefix, ih]
    exact (List.infix_cons_iff).symm

/-- C5: for every variable name, the synthesized descriptor has
`secret: true` and `required: true` if and only if the name, compared
case-insensitively, contains one of the substrings password/secret/token/key;
in every other case both flags are absent. -/
theorem settings_secret_inference (nm : List Char) :
    (((mkSetting nm).secret = some true ∧ (mkSetting nm).required = some true)
      ↔ ∃ p ∈ secretSubstrings, List.IsInfix p (toLowerChars nm))
    ∧ ((¬ ∃ p ∈ secretSubstrings, List.IsInfix p (toLowerChars nm)) →
      (mkSetting nm).secret = none ∧ (mkSetting nm).required = none) := by
  have hsec : secretName nm = true
      ↔ ∃ p ∈ secretSubstrings, List.IsInfix p (toLowerChars nm) := by
    simp only [secretName, Bool.or_eq_true, containsSeq_iff_isInfix]
    constructor
    · rintro (((h | h) | h) | h)
      · exact ⟨_, by simp [secretSubstrings], h⟩
      · exact ⟨_, by simp [secretSubstrings], h⟩
      · exact ⟨_, by simp [secretSubstrings], h⟩
      · exact ⟨_, by simp [secretSubstrings], h⟩
    · rintro ⟨p, hp, hinf⟩
      simp only [secretSubstrings, List.mem_cons, List.not_mem_nil, or_false] at hp
      rcases hp with rfl | rfl | rfl | rfl
      · exact Or.inl (Or.inl (Or.inl hinf))
      · exact Or.inl (Or.inl (Or.inr hinf))
      · exact Or.inl (Or.inr hinf)
      · exact Or.inr hinf
  constructor
  · by_cases h : secretName nm
    · simp only [mkSetting, h, if_true]
      simpa using hsec.mp h
    · have hnot : ¬ ∃ p ∈ secretSubstrings, List.IsInfix p (toLowerChars nm) :=
        fun hex => h (hsec.mpr hex)
      simp [mkSetting, h, hnot]
  · intro hnot
    have h : secretName nm = false := by
      cases hb : secretName nm
      · rfl
      · exact absurd (hsec.mp hb) hnot
    simp [mkSetting, h]

/-- C5 witness: `DB_PASSWORD` yields `secret: true, required: true`;
`LOG_LEVEL` yields both flags absent. -/
theorem settings_secret_inference_witness :
    ((mkSetting ("DB_PASSWORD".data)).secret = some true
      ∧ (mkSetting ("DB_PASSWORD".data)).required = some true)
    ∧ ((mkSetting ("LOG_LEVEL".data)).secret = none
      ∧ (mkSetting ("LOG_LEVEL".data)).required = none) :=
  ⟨(settings_secret_inference ("DB_PASSWORD".data)).1.mpr
      ⟨("password".data), by decide, ("db_".data), [], by decide⟩,
   (settings_secret_inference ("LOG_LEVEL".data)).2 (by decide)⟩

/-- A reported last-occurrence index is in bounds. -/
theorem lastIdxOf_lt_length (c : Char) :
    ∀ l : List Char, ∀ j, lastIdxOf c l = some j → j < l.length := by
  intro l
  induction l with
  | nil => intro j h; simp [lastIdxOf] at h
  | cons a rest ih =>
    intro j h
    simp only [lastIdxOf] at h
    cases hr : lastIdxOf c rest with
    | some j₀ =>
      rw [hr] at h
      cases h
      have := ih j₀ hr
      simp only [List.length_cons]
      omega
    | none =>
      rw [hr] at h
      by_cases ha : a = c
      · rw [if_pos ha] at h
        cases h
        simp
      · rw [if_neg ha] at h
        cases h

/-- A captured placeholder name is non-empty (the regex `.+` requires at
least one character). -/
theorem extractPlaceholder_some_ne_nil :
    ∀ v nm : List Char, extractPlaceholder v = some nm → nm ≠ [] := by
  intro v
  induction v with
  | nil => intro nm h; simp [extractPlaceholder] at h
  | cons a rest ih =>
    intro nm h
    rw [extractPlaceholder.eq_def] at h
    simp only [] at h
    split at h
    · split at h
      · split at h
        · rename_i j hj
          split at h
          · rename_i h1
            cases h
            have hjlen := lastIdxOf_lt_length _ _ _ hj
            intro hnil
            have hlen := congrArg List.length hnil
            rw [List.length_take] at hlen
            simp only [List.length_nil] at hlen
            omega
          · exact ih nm h
        · exact ih nm h
      · exact ih nm h
    · exact ih nm h

/-- `splitUnderscore` never returns an empty list of parts. -/
theorem splitUnderscore_ne_nil : ∀ l : List Char, splitUnderscore l ≠ [] := by
  intro l
  induction l with
  | nil => simp [splitUnderscore]
  | cons c rest ih =>
    simp only [splitUnderscore]
    split
    · simp
    · split <;> simp

/-- `splitUnderscore` either returns the whole input as a single part or at
least two parts. -/
theorem splitUnderscore_cases (l : List Char) :
    splitUnderscore l = [l] ∨ 2 ≤ (splitUnderscore l).length := by
  induction l with
  | nil => left; rfl
  | cons c rest ih =>
    simp only [splitUnderscore]
    by_cases hc : c = '_'
    · right
      rw [if_pos hc]
      cases h : splitUnderscore rest with
      | nil => exact absurd h (splitUnderscore_ne_nil rest)
      | cons x xs => simp
    · rw [if_neg hc]
      rcases ih with h | h
      · left
        rw [h]
      · right
        cases hsp : splitUnderscore rest with
        | nil => exact absurd hsp (splitUnderscore_ne_nil rest)
        | cons x xs =>
          rw [hsp] at h
          simp only []
          simpa using h

/-- For a non-empty variable name, the derived description is non-empty. -/
theorem inferDescription_ne_nil (nm : List Char) (h : nm ≠ []) :
    inferDescription nm ≠ [] := by
  unfold inferDescription
  split_ifs <;> try decide
  rcases splitUnderscore_cases nm with hs | hs
  · rw [hs]
    obtain ⟨c, rest, rfl⟩ : ∃ c rest, nm = c :: rest := by
      cases nm with
      | nil => exact absurd rfl h
      | cons c rest => exact ⟨c, rest, rfl⟩
    simp [joinWithSpace, titleWord]
  · cases hp : splitUnderscore nm with
    | nil => exact absurd hp (splitUnderscore_ne_nil nm)
    | cons x xs =>
      rw [hp] at hs
      cases xs with
      | nil => simp at hs
      | cons y ys =>
        simp only [List.map_cons, joinWithSpace]
        simp

/-- Membership in the first-seen deduplication. -/
theorem dedupFirstSeenGo_mem :
    ∀ (l : List (List Char)) (seen : List (List Char)) (x : List Char),
      x ∈ dedupFirstSeenGo seen l ↔ x ∈ l ∧ x ∉ seen := by
  intro l
  induction l with
  | nil => intro seen x; simp [dedupFirstSeenGo]
  | cons y rest ih =>
    intro seen x
    simp only [dedupFirstSeenGo]
    by_cases hy : y ∈ seen
    · rw [if_pos hy, ih]
      constructor
      · rintro ⟨hx, hnot⟩
        exact ⟨List.mem_cons_of_mem _ hx, hnot⟩
      · rintro ⟨hx, hnot⟩
        rcases List.mem_cons.mp hx with rfl | hx
        · exact absurd hy hnot
        · exact ⟨hx, hnot⟩
    · rw [if_neg hy]
      simp only [List.mem_cons, ih]
      constructor
      · rintro (rfl | ⟨hx, hnot⟩)
        · exact ⟨Or.inl rfl, hy⟩
        · exact ⟨Or.inr hx, fun hseen => hnot (Or.inr hseen)⟩
      · rintro ⟨rfl | hx, hnot⟩
        · exact Or.inl rfl
        · by_cases hxy : x = y
          · exact Or.inl hxy
          · refine Or.inr ⟨hx, fun hc => ?_⟩
            rcases hc with rfl | hc2
            · exact hxy rfl
            · exact hnot hc2

/-- The first-seen deduplication contains no duplicates. -/
theorem dedupFirstSeenGo_nodup :
    ∀ (l : List (List Char)) (seen : List (List Char)),
      (dedupFirstSeenGo seen l).Nodup := by
  intro l
  induction l with
  | nil => intro seen; simp [dedupFirstSeenGo]
  | cons y rest ih =>
    intro seen
    simp only [dedupFirstSeenGo]
    by_cases hy : y ∈ seen
    · rw [if_pos hy]
      exact ih seen
    · rw [if_neg hy]
      rw [List.nodup_cons]
      refine ⟨fun hmem => ?_, ih _⟩
      have := (dedupFirstSeenGo_mem rest (y :: seen) y).mp hmem
      exact this.2 (List.mem_cons_self y seen)

/-- The loop of the inference engine produces exactly the first-seen
deduplication of the extracted placeholder names, as the list of descriptor
names. -/
theorem inferSettingsAux_map_name :
    ∀ (vs : List String) (seen : List (List Char)),
      (inferSettingsAux seen vs).map (fun s => s.name)
        = dedupFirstSeenGo seen
            (vs.filterMap (fun v => extractPlaceholder v.data)) := by
  intro vs
  induction vs with
  | nil => intro seen; rfl
  | cons v rest ih =>
    intro seen
    simp only [inferSettingsAux, List.filterMap_cons]
    cases hx : extractPlaceholder v.data with
    | none => exact ih seen
    | some nm =>
      simp only [dedupFirstSeenGo]
      by_cases hmem : nm ∈ seen
      · simp only [if_pos hmem]
        exact ih seen
      · simp only [if_neg hmem]
        simp only [List.map_cons]
        rw [ih (nm :: seen)]
        rfl

/-- Every descriptor produced by the loop has a non-empty name and a
non-empty description. -/
theorem inferSettingsAux_fields :
    ∀ (vs : List String) (seen : List (List Char)) (s : SettingDescriptor),
      s ∈ inferSettingsAux seen vs → s.name ≠ [] ∧ s.description ≠ [] := by
  intro vs
  induction vs with
  | nil => intro seen s hs; simp [inferSettingsAux] at hs
  | cons v rest ih =>
    intro seen s hs
    simp only [inferSettingsAux] at hs
    cases hx : extractPlaceholder v.data with
    | none =>
      rw [hx] at hs
      exact ih seen s hs
    | some nm =>
      rw [hx] at hs
      simp only [] at hs
      by_cases hmem : nm ∈ seen
      · rw [if_pos hmem] at hs
        exact ih seen s hs
      · rw [if_neg hmem] at hs
        rcases List.mem_cons.mp hs with rfl | hs
        · have hne := extractPlaceholder_some_ne_nil _ _ hx
          exact ⟨by simpa [mkSetting] using hne,
            by simpa [mkSetting] using inferDescription_ne_nil nm hne⟩
        · exact ih _ s hs

/-- C6: for every map of server configs, the settings-inference engine
produces exactly one descriptor per distinct placeholder variable name —
its name list is the first-seen deduplication of the referenced names
(duplicates across servers removed, first-seen order preserved), with no
duplicates, containing exactly the referenced names — and every produced
descriptor has a (non-empty) name and a (non-empty) description. -/
theorem settings_dedup (servers : List (String × ServerConfig)) :
    ((inferSettingsFromMCPConfig servers).map (fun s => s.name)
        = dedupFirstSeen (extractedNames servers))
    ∧ ((inferSettingsFromMCPConfig servers).map (fun s => s.name)).Nodup
    ∧ (∀ nm, nm ∈ (inferSettingsFromMCPConfig servers).map (fun s => s.name)
        ↔ nm ∈ extractedNames servers)
    ∧ (∀ s ∈ inferSettingsFromMCPConfig servers,
        s.name ≠ [] ∧ s.description ≠ []) := by
  have h1 : (inferSettingsFromMCPConfig servers).map (fun s => s.name)
      = dedupFirstSeenGo [] (extractedNames servers) :=
    inferSettingsAux_map_name (allEnvValues servers) []
  refine ⟨h1, ?_, ?_, ?_⟩
  · rw [h1]
    exact dedupFirstSeenGo_nodup _ _
  · intro nm
    rw [h1, dedupFirstSeenGo_mem]
    simp
  · intro s hs
    exact inferSettingsAux_fields (allEnvValues servers) [] s hs

/-- Two servers both referencing the `API_KEY` placeholder in their
environment maps. -/
def exampleServers : List (String × ServerConfig) :=
  [("github",
    { command := "node", args := ["server.js"],
      env := [("API_KEY", "${API_KEY}")] }),
   ("db",
    { command := "node", args := [],
      env := [("TOKEN", "${API_KEY}")] })]

/-- C6 witness: the dedup theorem evaluated at two server configs that both
reference the `API_KEY` placeholder: inference yields exactly one descriptor,
named `API_KEY`, with non-empty name and description. -/
theorem settings_dedup_witness :
    (inferSettingsFromMCPConfig exampleServers).map (fun s => s.name)
        = [("API_KEY".data)]
    ∧ ((mkSetting ("API_KEY".data)).name ≠ []
        ∧ (mkSetting ("API_KEY".data)).description ≠ []) := by
  refine ⟨?_, ?_⟩
  · rw [(settings_dedup exampleServers).1]
    decide
  · exact (settings_dedup exampleServers).2.2.2 (mkSetting ("API_KEY".data))
      (by decide)

/-! ## Context/skill document generation (claude-to-gemini.js lines 303-324,
gemini-to-claude.js lines 85-158)

Document text is modelled as `List Char`.  The three `replace` regexes of
`_generateClaudeSkill` are modelled by the matches they produce on the
documents this development considers:

* `/^#\s+.+?\s+-\s+Gemini CLI Extension\n\n/m` removes the first occurrence
  of the banner line; in an A→B→A round trip that occurrence is exactly the
  banner `_generateGeminiContext` emitted for the same manifest name, so it
  is modelled as first-occurrence removal of that literal.
* `/##\s+Quick Start[\s\S]+?After installation.+?\n\n/m` removes, on the
  generated context, exactly the literal quick-start block emitted by
  `_generateGeminiContext` (the lazy quantifiers stop at its closing blank
  line), so it is modelled as first-occurrence removal of that literal.
* `/\n---\n\n\*This extension was converted.+?\*\n$/s` is anchored at the end
  of the document; on documents whose body contains no other occurrence of
  its opening text (all documents considered here), its match is exactly the
  generated footer, so it is modelled as suffix removal of that literal. -/

/-- Two newline characters. -/
def newline2 : List Char := ['\n', '\n']

/-- The platform banner of `_generateGeminiContext` (claude-to-gemini.js
line 308). -/
def geminiBanner (n : List Char) : List Char :=
  ("# ".data) ++ n ++ (" - Gemini CLI Extension\n\n".data)

/-- The quick-start block of `_generateGeminiContext` (line 310). -/
def quickStartBlock : List Char :=
  ("## Quick Start\n\nAfter installation, you can use this extension by asking questions or giving commands naturally.\n\n".data)

/-- The conversion-provenance footer pattern stripped by
`_generateClaudeSkill` (gemini-to-claude.js line 121): the generated Gemini
footer minus the first of its two leading newlines. -/
def geminiFooterPat : List Char :=
  ("\n---\n\n*This extension was converted from a Claude Code skill using [skill-porter](https://github.com/jduncan-rva/skill-porter)*\n".data)

/-- The conversion-provenance footer appended by `_generateGeminiContext`
(lines 316-317). -/
def geminiFooter : List Char := '\n' :: geminiFooterPat

/-- The title line of `_generateClaudeSkill` (gemini-to-claude.js
line 110). -/
def claudeHeader (n : List Char) : List Char :=
  ("# ".data) ++ n ++ (" - Claude Code Skill\n\n".data)

/-- The conversion-provenance footer appended by `_generateClaudeSkill`
(lines 150-151). -/
def claudeFooter : List Char :=
  ("---\n\n*This skill was converted from a Gemini CLI extension using [skill-porter](https://github.com/jduncan-rva/skill-porter)*\n".data)

/-- The text line of the Claude-direction conversion footer (used for
counting occurrences independently of surrounding newlines). -/
def claudeFooterLine : List Char :=
  ("*This skill was converted from a Gemini CLI extension using [skill-porter](https://github.com/jduncan-rva/skill-porter)*".data)

/-- `_generateGeminiContext` (claude-to-gemini.js lines 303-324): banner,
description, quick-start block, original body, footer.  No stripping of any
kind is performed in this direction. -/
def generateGeminiContext (n d content : List Char) : List Char :=
  geminiBanner n ++ d ++ newline2 ++ quickStartBlock ++ content ++ geminiFooter

/-- Remove the first occurrence of `pat` (a `String.replace` with a single
non-global match), or return the text unchanged when there is none. -/
def removeFirst (pat : List Char) : List Char → List Char
  | [] => []
  | c :: rest =>
    if pat.isPrefixOf (c :: rest) then (c :: rest).drop pat.length
    else c :: removeFirst pat rest

/-- Remove `pat` from the end of the text when it is a suffix (the
end-anchored footer `replace`). -/
def stripSuffixPat (pat s : List Char) : List Char :=
  if pat.isSuffixOf s then s.take (s.length - pat.length) else s

/-- The whitespace class of `String.prototype.trim` restricted to the
characters that occur in these documents. -/
def isWhitespace (c : Char) : Bool :=
  c = ' ' || c = '\t' || c = '\n' || c = '\r'

/-- `String.prototype.trim`. -/
def trimChars (l : List Char) : List Char :=
  ((l.dropWhile isWhitespace).reverse.dropWhile isWhitespace).reverse

/-- The three strips `_generateClaudeSkill` applies to the incoming context
body (gemini-to-claude.js lines 113-121): Gemini banner, quick-start block,
Gemini conversion footer. -/
def cleanGeminiContent (n content : List Char) : List Char :=
  stripSuffixPat geminiFooterPat
    (removeFirst quickStartBlock (removeFirst (geminiBanner n) content))

/-- One bullet of the generated Configuration section (gemini-to-claude.js
lines 127-136). -/
def settingBullet (s : SettingDescriptor) : List Char :=
  ("- `".data) ++ s.name ++ ("`: ".data) ++ s.description
    ++ (match s.default with
        | some dv => (" (default: ".data) ++ dv ++ (")".data)
        | none => [])
    ++ (match s.required with
        | some true => (" **(required)**".data)
        | _ => [])
    ++ ['\n']

/-- The Configuration section generated when the manifest has settings
(gemini-to-claude.js lines 124-139). -/
def configSection (settings : List SettingDescriptor) : List Char :=
  if settings.isEmpty then []
  else
    ("## Configuration\n\nThis skill requires the following environment variables:\n\n".data)
      ++ (settings.map settingBullet).flatten
      ++ ("\nSet these in your environment or Claude Code configuration.\n\n".data)

/-- The fallback Usage section for an empty cleaned body (gemini-to-claude.js
line 146). -/
def usageSection (d : List Char) : List Char :=
  ("## Usage\n\nUse this skill when you need ".data) ++ toLowerChars d
    ++ (".\n\n".data)

/-- The body text of the SKILL.md generated by `_generateClaudeSkill`
(gemini-to-claude.js lines 107-151), from the title line onward (the YAML
frontmatter block is elided; the claims below are about the body text). -/
def generateClaudeSkillBody (n d : List Char) (settings : List SettingDescriptor)
    (content : List Char) : List Char :=
  claudeHeader n ++ d ++ newline2 ++ configSection settings
    ++ (if trimChars (cleanGeminiContent n content) ≠ [] then
          trimChars (cleanGeminiContent n content) ++ newline2
        else usageSection d)
    ++ claudeFooter

/-- An A→B→A round trip of a SchemaA body: `_generateGeminiContext` emits the
context document from the body, and `_generateClaudeSkill` regenerates a
skill body from it.  The manifest name and description the B→A direction
reads are the ones the A→B direction wrote, and the manifest carries no
settings (the source skill had no MCP servers). -/
def roundTripSkillBody (n d body : List Char) : List Char :=
  generateClaudeSkillBody n d [] (generateGeminiContext n d body)

/-- Number of positions at which `pat` occurs in the text. -/
def countOcc (pat : List Char) : List Char → Nat
  | [] => if pat.isPrefixOf [] then 1 else 0
  | c :: rest => (if pat.isPrefixOf (c :: rest) then 1 else 0) + countOcc pat rest

/-- Removing a pattern that sits at the front removes exactly it. -/
theorem removeFirst_leading (pat rest : List Char) (h : pat ≠ []) :
    removeFirst pat (pat ++ rest) = rest := by
  cases pat with
  | nil => exact absurd rfl h
  | cons p pr =>
    rw [List.cons_append, removeFirst]
    rw [if_pos (by
      rw [List.isPrefixOf_iff_prefix, ← List.cons_append]
      exact ⟨rest, rfl⟩)]
    simp only [List.length_cons, List.drop_succ_cons]
    exact List.drop_left pr rest

/-- First-occurrence removal passes over a region that does not contain the
pattern's first character. -/
theorem removeFirst_append_of_head_notMem (pat x y : List Char) (p0 : Char)
    (hp : pat.head? = some p0) (hx : p0 ∉ x) :
    removeFirst pat (x ++ y) = x ++ removeFirst pat y := by
  obtain ⟨pr, rfl⟩ : ∃ pr, pat = p0 :: pr := by
    cases pat with
    | nil => simp at hp
    | cons a pr =>
      simp only [List.head?_cons, Option.some.injEq] at hp
      exact ⟨pr, by rw [hp]⟩
  induction x with
  | nil => simp
  | cons c t ih =>
    have hc : p0 ≠ c := fun e => hx (by rw [e]; exact List.mem_cons_self c t)
    rw [List.cons_append, removeFirst]
    rw [if_neg (by
      simp only [List.isPrefixOf, Bool.and_eq_true, beq_iff_eq]
      rintro ⟨rfl, -⟩
      exact hc rfl)]
    rw [ih (fun hm => hx (List.mem_cons_of_mem _ hm))]
    rfl

/-- Occurrence counting passes over a region that does not contain the
pattern's first character. -/
theorem countOcc_append_of_head_notMem (pat x y : List Char) (p0 : Char)
    (hp : pat.head? = some p0) (hx : p0 ∉ x) :
    countOcc pat (x ++ y) = countOcc pat y := by
  obtain ⟨pr, rfl⟩ : ∃ pr, pat = p0 :: pr := by
    cases pat with
    | nil => simp at hp
    | cons a pr =>
      simp only [List.head?_cons, Option.some.injEq] at hp
      exact ⟨pr, by rw [hp]⟩
  induction x with
  | nil => rfl
  | cons c t ih =>
    have hc : p0 ≠ c := fun e => hx (by rw [e]; exact List.mem_cons_self c t)
    rw [List.cons_append, countOcc]
    rw [if_neg (by
      simp only [List.isPrefixOf, Bool.and_eq_true, beq_iff_eq]
      rintro ⟨rfl, -⟩
      exact hc rfl)]
    rw [ih (fun hm => hx (List.mem_cons_of_mem _ hm))]
    omega

/-- A pattern whose first character is absent from the text never occurs. -/
theorem countOcc_eq_zero_of_head_notMem (pat s : List Char) (p0 : Char)
    (hp : pat.head? = some p0) (hs : p0 ∉ s) :
    countOcc pat s = 0 := by
  have h := countOcc_append_of_head_notMem pat s [] p0 hp hs
  rw [List.append_nil] at h
  rw [h]
  obtain ⟨pr, rfl⟩ : ∃ pr, pat = p0 :: pr := by
    cases pat with
    | nil => simp at hp
    | cons a pr =>
      simp only [List.head?_cons, Option.some.injEq] at hp
      exact ⟨pr, by rw [hp]⟩
  rfl

/-- Stripping a suffix pattern that sits at the end removes exactly it. -/
theorem stripSuffixPat_append (pat x : List Char) :
    stripSuffixPat pat (x ++ pat) = x := by
  unfold stripSuffixPat
  rw [if_pos (by
    rw [List.isSuffixOf_iff_suffix]
    exact ⟨x, rfl⟩)]
  rw [List.length_append]
  have h : x.length + pat.length - pat.length = x.length := by omega
  rw [h, List.take_left]

/-- Members of `dropWhile` are members of the original list. -/
theorem mem_of_mem_dropWhile (p : Char → Bool) :
    ∀ (l : List Char) (c : Char), c ∈ l.dropWhile p → c ∈ l := by
  intro l
  induction l with
  | nil => intro c h; simp [List.dropWhile] at h
  | cons a t ih =>
    intro c h
    rw [List.dropWhile_cons] at h
    by_cases hpa : p a = true
    · rw [if_pos hpa] at h
      exact List.mem_cons_of_mem _ (ih c h)
    · rw [if_neg hpa] at h
      exact h

/-- A member that fails the predicate survives `dropWhile`. -/
theorem mem_dropWhile_of_not (p : Char → Bool) :
    ∀ (l : List Char) (c : Char), c ∈ l → p c = false → c ∈ l.dropWhile p := by
  intro l
  induction l with
  | nil => intro c h; simp at h
  | cons a t ih =>
    intro c h hpc
    rw [List.dropWhile_cons]
    by_cases hpa : p a = true
    · rw [if_pos hpa]
      rcases List.mem_cons.mp h with rfl | hct
      · rw [hpc] at hpa; cases hpa
      · exact ih c hct hpc
    · rw [if_neg hpa]
      exact h

/-- Members of the trimmed text are members of the original text. -/
theorem mem_of_mem_trimChars {c : Char} {l : List Char}
    (h : c ∈ trimChars l) : c ∈ l := by
  unfold trimChars at h
  rw [List.mem_reverse] at h
  have h1 := mem_of_mem_dropWhile isWhitespace _ _ h
  rw [List.mem_reverse] at h1
  exact mem_of_mem_dropWhile isWhitespace _ _ h1

/-- A text containing a non-whitespace character does not trim to empty. -/
theorem trimChars_ne_nil (l : List Char) (c : Char) (hc : c ∈ l)
    (hw : isWhitespace c = false) : trimChars l ≠ [] := by
  unfold trimChars
  have h1 : c ∈ l.dropWhile isWhitespace := mem_dropWhile_of_not _ _ _ hc hw
  have h2 : c ∈ (l.dropWhile isWhitespace).reverse := List.mem_reverse.mpr h1
  have h3 : c ∈ (l.dropWhile isWhitespace).reverse.dropWhile isWhitespace :=
    mem_dropWhile_of_not _ _ _ h2 hw
  intro hnil
  rw [List.reverse_eq_nil_iff] at hnil
  rw [hnil] at h3
  simp at h3

/-- C3 (amended): the B→A direction strips the A→B direction's banner,
quick-start block, and conversion footer from the incoming context body, so
for every SchemaA source document whose name, description and body contain
no boilerplate markers (no `#` or `*` characters, the description containing
some non-whitespace), a single A→B→A round trip regenerates a body in which
the quick-start banner appears zero times (the original never had one) and
the conversion-provenance footer exactly once; the cleaned body is exactly
description, blank line, original body, newline.  (The A→B direction strips
nothing, so boilerplate already present in the source body is not removed —
see the counterexample.) -/
theorem roundtrip_banner_footer (n d body : List Char)
    (hn1 : '#' ∉ n) (hn2 : '*' ∉ n)
    (hd1 : '#' ∉ d) (hd2 : '*' ∉ d)
    (hb1 : '#' ∉ body) (hb2 : '*' ∉ body)
    (hdw : ∃ c ∈ d, isWhitespace c = false) :
    cleanGeminiContent n (generateGeminiContext n d body)
        = (d ++ newline2) ++ (body ++ ['\n'])
    ∧ countOcc quickStartBlock (roundTripSkillBody n d body) = 0
    ∧ countOcc claudeFooterLine (roundTripSkillBody n d body) = 1 := by
  have hG : generateGeminiContext n d body
      = geminiBanner n ++ ((d ++ newline2) ++ (quickStartBlock ++ (body ++ geminiFooter))) := by
    unfold generateGeminiContext
    simp [List.append_assoc]
  have hBne : geminiBanner n ≠ [] := by
    rw [show geminiBanner n
        = '#' :: (' ' :: (n ++ (" - Gemini CLI Extension\n\n".data))) from rfl]
    exact List.cons_ne_nil _ _
  have h1 : removeFirst (geminiBanner n) (generateGeminiContext n d body)
      = (d ++ newline2) ++ (quickStartBlock ++ (body ++ geminiFooter)) := by
    rw [hG]
    exact removeFirst_leading _ _ hBne
  have hd2' : '#' ∉ d ++ newline2 := by
    intro hm
    rcases List.mem_append.mp hm with h | h
    · exact hd1 h
    · revert h; decide
  have h2 : removeFirst quickStartBlock
        ((d ++ newline2) ++ (quickStartBlock ++ (body ++ geminiFooter)))
      = (d ++ newline2) ++ (body ++ geminiFooter) := by
    rw [removeFirst_append_of_head_notMem quickStartBlock (d ++ newline2) _ '#'
      (by decide) hd2']
    rw [removeFirst_leading _ _ (by decide)]
  have hsplit : (d ++ newline2) ++ (body ++ geminiFooter)
      = ((d ++ newline2) ++ (body ++ ['\n'])) ++ geminiFooterPat := by
    show (d ++ newline2) ++ (body ++ ('\n' :: geminiFooterPat)) = _
    simp [List.append_assoc]
  have h3 : stripSuffixPat geminiFooterPat
        ((d ++ newline2) ++ (body ++ geminiFooter))
      = (d ++ newline2) ++ (body ++ ['\n']) := by
    rw [hsplit, stripSuffixPat_append]
  have hclean : cleanGeminiContent n (generateGeminiContext n d body)
      = (d ++ newline2) ++ (body ++ ['\n']) := by
    unfold cleanGeminiContent
    rw [h1, h2, h3]
  obtain ⟨cw, hcw, hww⟩ := hdw
  have htne : trimChars ((d ++ newline2) ++ (body ++ ['\n'])) ≠ [] :=
    trimChars_ne_nil _ cw
      (List.mem_append.mpr (Or.inl (List.mem_append.mpr (Or.inl hcw)))) hww
  have hF : roundTripSkillBody n d body
      = claudeHeader n ++ d ++ newline2
        ++ (trimChars ((d ++ newline2) ++ (body ++ ['\n'])) ++ newline2)
        ++ claudeFooter := by
    unfold roundTripSkillBody generateClaudeSkillBody
    rw [hclean, if_pos htne]
    simp [configSection, List.append_assoc]
  have htrimsub : ∀ c : Char,
      c ∈ trimChars ((d ++ newline2) ++ (body ++ ['\n'])) →
        c ∈ d ∨ c ∈ newline2 ∨ c ∈ body ∨ c = '\n' := by
    intro c hm
    have := mem_of_mem_trimChars hm
    simp only [List.mem_append, List.mem_singleton] at this
    tauto
  refine ⟨hclean, ?_, ?_⟩
  · have hFcons : roundTripSkillBody n d body
        = '#' :: (' ' :: (((((n ++ (" - Claude Code Skill\n\n".data)) ++ d)
            ++ newline2)
            ++ (trimChars ((d ++ newline2) ++ (body ++ ['\n'])) ++ newline2))
            ++ claudeFooter)) := by
      rw [hF]
      rfl
    have hsharpW : '#' ∉ ((((n ++ (" - Claude Code Skill\n\n".data)) ++ d)
        ++ newline2)
        ++ (trimChars ((d ++ newline2) ++ (body ++ ['\n'])) ++ newline2))
        ++ claudeFooter := by
      intro hm
      simp only [List.mem_append] at hm
      rcases hm with ((((hm | hm) | hm) | hm) | (hm | hm)) | hm
      · exact hn1 hm
      · revert hm; decide
      · exact hd1 hm
      · revert hm; decide
      · rcases htrimsub '#' hm with h | h | h | h
        · exact hd1 h
        · revert h; decide
        · exact hb1 h
        · revert h; decide
      · revert hm; decide
      · revert hm; decide
    have hq : quickStartBlock = '#' :: ('#' :: quickStartBlock.drop 2) := by
      decide
    rw [hFcons, countOcc]
    rw [if_neg (by
      rw [hq]
      simp only [List.isPrefixOf, Bool.and_eq_true, beq_iff_eq]
      rintro ⟨-, h, -⟩
      exact absurd h (by decide))]
    rw [countOcc]
    rw [if_neg (by
      rw [hq]
      simp only [List.isPrefixOf, Bool.and_eq_true, beq_iff_eq]
      rintro ⟨h, -⟩
      exact absurd h (by decide))]
    rw [countOcc_eq_zero_of_head_notMem quickStartBlock _ '#' (by decide) hsharpW]
  · have hstarA : '*' ∉ claudeHeader n ++ d ++ newline2
        ++ (trimChars ((d ++ newline2) ++ (body ++ ['\n'])) ++ newline2) := by
      intro hm
      simp only [claudeHeader, List.mem_append] at hm
      rcases hm with ((((hm | hm) | hm) | hm) | hm) | (hm | hm)
      · revert hm; decide
      · exact hn2 hm
      · revert hm; decide
      · exact hd2 hm
      · revert hm; decide
      · rcases htrimsub '*' hm with h | h | h | h
        · exact hd2 h
        · revert h; decide
        · exact hb2 h
        · revert h; decide
      · revert hm; decide
    rw [hF]
    rw [countOcc_append_of_head_notMem claudeFooterLine _ claudeFooter '*'
      (by decide) hstarA]
    decide

/-- C3 counterexample: a SchemaA body that already contains the Claude
conversion footer exactly once (as any body produced by an earlier B→A
conversion does).  After an A→B→A round trip the regenerated body contains
the footer twice — the A→B direction strips nothing, so the claim's
"appears exactly once" fails. -/
theorem roundtrip_banner_footer_counterexample :
    countOcc claudeFooterLine (("Hello.\n\n".data) ++ claudeFooter) = 1
    ∧ countOcc claudeFooterLine
        (roundTripSkillBody ("a".data) ("b".data)
          (("Hello.\n\n".data) ++ claudeFooter)) = 2 := by
  constructor
  · decide
  · decide

/-- C3 witness: the amended round-trip theorem evaluated at a concrete
boilerplate-free document. -/
theorem roundtrip_banner_footer_witness :
    countOcc quickStartBlock
        (roundTripSkillBody ("a".data) ("Formats code".data) ("Hello.\n".data)) = 0
    ∧ countOcc claudeFooterLine
        (roundTripSkillBody ("a".data) ("Formats code".data) ("Hello.\n".data)) = 1 :=
  ⟨(roundtrip_banner_footer ("a".data) ("Formats code".data) ("Hello.\n".data)
      (by decide) (by decide) (by decide) (by decide) (by decide) (by decide)
      ⟨'F', by decide, by decide⟩).2.1,
   (roundtrip_banner_footer ("a".data) ("Formats code".data) ("Hello.\n".data)
      (by decide) (by decide) (by decide) (by decide) (by decide) (by decide)
      ⟨'F', by decide, by decide⟩).2.2⟩
